import Mathlib

/-!
# Verification of the flood-wave-detector core

Shallow embedding of the core of the `flood_wave_detector` repository and
proofs about it.  Water levels, null points and river kilometres (floats in
the source) are embedded as rationals; calendar dates are embedded as integer
day offsets; gauge (station) identifiers, which the source stores as numeric
strings and compares through `float(...)`, are embedded as integers.

Each section names the Python function it embeds.
-/

namespace FloodWave

/-! ## Peak detection: `FloodWaveDetector.get_local_peak_values`

The source computes, for each `shift` in `1..centered_window_radius`,

* `left_cond[i]  = i ≥ shift ∧ x[i] > x[i-shift]`
* `right_cond[i] = i + shift < n ∧ x[i] ≥ x[i+shift]`

and flags index `i` as a peak iff the conjunction over all shifts holds. -/

/-- `left_cond` of `get_local_peak_values` at index `i` for a given `shift`:
`np.r_[[False]*shift, gauge_ts[shift:] > gauge_ts[:-shift]]`. -/
def leftCond (x : List ℚ) (shift i : ℕ) : Bool :=
  decide (shift ≤ i) && decide (x.getD (i - shift) 0 < x.getD i 0)

/-- `right_cond` of `get_local_peak_values` at index `i` for a given `shift`:
`np.r_[gauge_ts[:-shift] >= gauge_ts[shift:], [False]*shift]`. -/
def rightCond (x : List ℚ) (shift i : ℕ) : Bool :=
  decide (i + shift < x.length) && decide (x.getD (i + shift) 0 ≤ x.getD i 0)

/-- The peak flag computed by `get_local_peak_values`: the conjunction of
`left_cond` and `right_cond` over all shifts `1..δ` (starting from the
all-`True` array `cond`). -/
def get_local_peak_values (x : List ℚ) (δ : ℕ) (i : ℕ) : Bool :=
  (List.range' 1 δ).all (fun shift => leftCond x shift i && rightCond x shift i)

/-! ## Edge construction: `PreparationHandler.filter_for_start_and_length`,
`PreparationHandler.find_dates_for_next_gauge` and
`FloodWaveDetector.find_edges` -/

/-- `PreparationHandler.filter_for_start_and_length`: keep the candidate dates
`d` with `date - backward_span ≤ d ≤ date + forward_span`. -/
def filter_for_start_and_length (candidateVertices : List ℤ) (date : ℤ)
    (forwardSpan backwardSpan : ℤ) : List ℤ :=
  let maxDate := date + forwardSpan
  let minDate := date - backwardSpan
  candidateVertices.filter (fun d => decide (minDate ≤ d) && decide (d ≤ maxDate))

/-- `PreparationHandler.find_dates_for_next_gauge` (as called from
`find_edges` with `backward = backward_dict[current_gauge]` and
`forward = forward_dict[current_gauge]`). -/
def find_dates_for_next_gauge (actualDate : ℤ) (backward : ℤ)
    (nextGaugeCandidateVertices : List ℤ) (forward : ℤ) : List ℤ :=
  filter_for_start_and_length nextGaugeCandidateVertices actualDate forward backward

/-- The edges produced by `FloodWaveDetector.find_edges`: for each adjacent
gauge pair `(u, v)` (from `zip_longest(gauges[:-1], gauges[1:])`) and each peak
date `du` of `u`, one edge `(u, du, v, dv)` per date `dv` returned by
`find_dates_for_next_gauge`. -/
def find_edges (gauges : List ℤ) (peaksOf : ℤ → List ℤ) (backwardDict forwardDict : ℤ → ℤ) :
    List (ℤ × ℤ × ℤ × ℤ) :=
  (gauges.zip gauges.tail).flatMap (fun p =>
    (peaksOf p.1).flatMap (fun du =>
      (find_dates_for_next_gauge du (backwardDict p.1) (peaksOf p.2) (forwardDict p.1)).map
        (fun dv => (p.1, du, p.2, dv))))

/-! ## Slopes: `SlopeCalculator.preprocess_for_get_slopes` and
`SlopeCalculator.get_slopes` -/

/-- The data `preprocess_for_get_slopes` stores on the calculator: null points
and river kilometres of the current (upstream) and next (downstream) gauge.
`distance` is computed as `float(next_river_km - current_river_km)`. -/
structure SlopeData where
  currentNull : ℚ
  nextNull : ℚ
  currentRiverKm : ℚ
  nextRiverKm : ℚ

/-- `self.distance` of `SlopeCalculator`: `next_river_km - current_river_km`. -/
def SlopeData.distance (d : SlopeData) : ℚ := d.nextRiverKm - d.currentRiverKm

/-- One slope of `SlopeCalculator.get_slopes`:
`((next_level + next_null) - (current_level + current_null)) / distance`. -/
def get_slopes (d : SlopeData) (currentWaterLevel nextWaterLevel : ℚ) : ℚ :=
  ((nextWaterLevel + d.nextNull) - (currentWaterLevel + d.currentNull)) / d.distance

/-! ## Graph model

A vertex of the flood-wave graph is a `(station id, date)` pair (the source
uses `(gauge_string, 'YYYY-MM-DD')` tuples and compares stations through
`float(...)`); a graph is a node set plus a directed edge set, as in
`networkx.DiGraph`. -/

/-- A vertex: `(station id, date as day offset)`. -/
abbrev Node := ℤ × ℤ

/-- A directed graph in the style of `networkx.DiGraph`. -/
structure DiGraphM where
  nodes : Finset Node
  edges : Finset (Node × Node)
deriving DecidableEq

/-- The `networkx` invariant: endpoints of every edge are nodes of the graph. -/
def WF (g : DiGraphM) : Prop := ∀ e ∈ g.edges, e.1 ∈ g.nodes ∧ e.2 ∈ g.nodes

instance : DecidablePred WF := fun _ => Finset.decidableDforallFinset

/-- Lexicographic order on vertices, used only to enumerate finite vertex
sets in a deterministic order (as `networkx` enumerates its node dict). -/
def nodeLe (a b : Node) : Prop := a.1 < b.1 ∨ (a.1 = b.1 ∧ a.2 ≤ b.2)

instance (a b : Node) : Decidable (nodeLe a b) := inferInstanceAs (Decidable (_ ∨ _))

instance : IsTrans Node nodeLe := by
  constructor
  intro a b c h1 h2
  unfold nodeLe at h1 h2 ⊢
  omega

instance : IsAntisymm Node nodeLe := by
  constructor
  intro a b h1 h2
  unfold nodeLe at h1 h2
  have h3 : a.1 = b.1 ∧ a.2 = b.2 := by omega
  exact Prod.ext h3.1 h3.2

instance : IsTotal Node nodeLe := by
  constructor
  intro a b
  unfold nodeLe
  omega

/-- Deterministic enumeration of a finite vertex set (insertion sort lifted
to the quotient, so that it also evaluates inside the kernel). -/
def toL (s : Finset Node) : List Node :=
  Quot.liftOn s.val (fun l => List.insertionSort nodeLe l)
    (fun l1 l2 h => List.eq_of_perm_of_sorted
      ((List.perm_insertionSort nodeLe l1).trans
        ((Quotient.exact (Quot.sound h)).trans (List.perm_insertionSort nodeLe l2).symm))
      (List.sorted_insertionSort nodeLe l1) (List.sorted_insertionSort nodeLe l2))

/-- Undirected adjacency: the view `nx.weakly_connected_components` works on. -/
def nadj (g : DiGraphM) (u v : Node) : Prop := (u, v) ∈ g.edges ∨ (v, u) ∈ g.edges

instance (g : DiGraphM) (u v : Node) : Decidable (nadj g u v) :=
  inferInstanceAs (Decidable (_ ∨ _))

/-- One step of the undirected closure: the nodes of `g` that are already
collected or adjacent to a collected node. -/
def closeStep (g : DiGraphM) (cur : Finset Node) : Finset Node :=
  g.nodes.filter (fun v => v ∈ cur ∨ ∃ u ∈ cur, nadj g u v)

/-- Iterate `closeStep` until it reaches a fixed point (the fuel `k` bounds
the number of iterations; `|nodes|` steps always suffice). -/
def closeIter (g : DiGraphM) : ℕ → Finset Node → Finset Node
  | 0, cur => cur
  | k + 1, cur => if closeStep g cur = cur then cur else closeIter g k (closeStep g cur)

/-- The weakly connected component of `v` in `g`. -/
def component (g : DiGraphM) (v : Node) : Finset Node := closeIter g g.nodes.card {v}

/-- One step of the component enumeration: start a new component at `v`
unless `v` was already collected. -/
def compFold (g : DiGraphM) (acc : List (Finset Node)) (v : Node) : List (Finset Node) :=
  if acc.any (fun c => decide (v ∈ c)) then acc else acc ++ [component g v]

/-- `nx.weakly_connected_components`: the distinct weakly connected
components of `g`, one per first-encountered representative. -/
def weakComponents (g : DiGraphM) : List (Finset Node) :=
  (toL g.nodes).foldl (compFold g) []

/-- `DiGraph.in_degree`. -/
def in_degree (g : DiGraphM) (v : Node) : ℕ := (g.edges.filter (fun e => e.2 = v)).card

/-- `DiGraph.out_degree`. -/
def out_degree (g : DiGraphM) (v : Node) : ℕ := (g.edges.filter (fun e => e.1 = v)).card

/-! ## Wave extraction: `FloodWaveHandler.get_final_pairs` and
`FloodWaveExtractor` -/

/-- `FloodWaveHandler.get_final_pairs`: possible start nodes (in-degree 0)
and possible end nodes (out-degree 0) of a component, paired by
`itertools.product` and kept when `float(x[0]) > float(y[0])`. -/
def get_final_pairs (g : DiGraphM) (comp : List Node) : List (Node × Node) :=
  let possibleStartNodes := comp.filter (fun v => in_degree g v == 0)
  let possibleEndNodes := comp.filter (fun v => out_degree g v == 0)
  let cartesianPairs :=
    possibleStartNodes.flatMap (fun x => possibleEndNodes.map (fun y => (x, y)))
  cartesianPairs.filter (fun p => decide (p.2.1 < p.1.1))

/-- The successor nodes of `s` in `g` (no parallel edges in a `DiGraph`). -/
def successors (g : DiGraphM) (s : Node) : List Node :=
  toL ((g.edges.filter (fun e => e.1 = s)).image Prod.snd)

/-- All directed walks of exactly `k` edges from `s` to `t` in `g`. -/
def walks (g : DiGraphM) : ℕ → Node → Node → List (List Node)
  | 0, s, t => if s = t then [[s]] else []
  | k + 1, s, t =>
      (successors g s).flatMap (fun m => (walks g k m t).map (fun p => s :: p))

/-- The number of edges of a shortest directed path from `s` to `t`, if one
exists: the least `k ≤ |nodes|` admitting a walk of `k` edges (walks of
minimal length are simple, so the bound is exhaustive). -/
def shortestLen (g : DiGraphM) (s t : Node) : Option ℕ :=
  (List.range (g.nodes.card + 1)).find? (fun k => !(walks g k s t).isEmpty)

/-- `nx.all_shortest_paths`, forced to a list as the source does with
`list(wave)`; `none` models the `NetworkXNoPath` exception. -/
def all_shortest_paths (g : DiGraphM) (s t : Node) : Option (List (List Node)) :=
  (shortestLen g s t).map (fun k => walks g k s t)

/-- `nx.shortest_path`: one shortest path; `none` models `NetworkXNoPath`. -/
def shortest_path (g : DiGraphM) (s t : Node) : Option (List Node) :=
  (all_shortest_paths g s t).bind List.head?

/-- `FloodWaveExtractor.get_flood_waves` (equivalence-collapsed extraction):
one shortest path per connected final pair; `NetworkXNoPath` is skipped. -/
def get_flood_waves (g : DiGraphM) : List (List Node) :=
  (weakComponents g).flatMap (fun comp =>
    (get_final_pairs g (toL comp)).filterMap (fun p => shortest_path g p.1 p.2))

/-- `FloodWaveExtractor.get_flood_waves_without_equivalence` (expanded
extraction): the list of all shortest paths per connected final pair. -/
def get_flood_waves_without_equivalence (g : DiGraphM) : List (List (List Node)) :=
  (weakComponents g).flatMap (fun comp =>
    (get_final_pairs g (toL comp)).filterMap (fun p => all_shortest_paths g p.1 p.2))

/-! ## Selections: `SelectionHandler` and `Selection` -/

/-- `SelectionHandler.is_gauge_in_comp`. -/
def is_gauge_in_comp (gauge : ℤ) (compList : List Node) : Bool :=
  compList.any (fun v => v.1 == gauge)

/-- `SelectionHandler.nodes_and_edges`: the nodes are the concatenation of
the kept components; an edge is kept iff its source endpoint (`edge[0]`) lies
in one of the kept components.  (The source gathers the kept edges in a list
read off the graph's edge set; the set of kept edges is embedded directly.) -/
def nodes_and_edges (comps : List (List Node)) (edges : Finset (Node × Node)) :
    List Node × Finset (Node × Node) :=
  (comps.flatMap id, edges.filter (fun e => comps.any (fun c => c.contains e.1) = true))

/-- `g = nx.DiGraph(); g.add_nodes_from(nodes); g.add_edges_from(edges)`:
adding an edge also adds its endpoints as nodes. -/
def buildGraph (nodes : List Node) (edges : Finset (Node × Node)) : DiGraphM :=
  ⟨nodes.toFinset ∪ edges.image Prod.fst ∪ edges.image Prod.snd, edges⟩

/-- `SelectionHandler.get_gauges`: the distinct stations appearing in the
given components (the source sorts them descending; only membership is used
downstream, which `List.dedup` preserves). -/
def get_gauges (comps : List (List Node)) : List ℤ :=
  ((comps.flatMap id).map Prod.fst).dedup

/-- `Selection.select_by_station`. -/
def select_by_station (g : DiGraphM) (station : ℤ) : DiGraphM :=
  let comps := (weakComponents g).map toL
  let compsNew := comps.filter (fun c => is_gauge_in_comp station c)
  let ne := nodes_and_edges compsNew g.edges
  buildGraph ne.1 ne.2

/-- The station slice
`sorted_stations[sorted_stations.index(start) : sorted_stations.index(end) + 1]`. -/
def intervalSlice (sortedStations : List ℤ) (startStation endStation : ℤ) : List ℤ :=
  (sortedStations.take (sortedStations.indexOf endStation + 1)).drop
    (sortedStations.indexOf startStation)

/-- `Selection.select_intersecting_with_interval`. -/
def select_intersecting_with_interval (g : DiGraphM) (startStation endStation : ℤ)
    (sortedStations : List ℤ) : DiGraphM :=
  let comps := (weakComponents g).map toL
  let gauges := get_gauges comps
  let filteredStations := intervalSlice sortedStations startStation endStation
  let finalStations := gauges.filter (fun st => filteredStations.contains st)
  let compsNew := comps.filter (fun c => finalStations.any (fun st => is_gauge_in_comp st c))
  let ne := nodes_and_edges compsNew g.edges
  buildGraph ne.1 ne.2

/-- The `stations_to_delete` list of `Selection.select_only_in_interval`: the
stations present in the intersecting selection but outside the interval. -/
def stations_to_delete (g : DiGraphM) (startStation endStation : ℤ)
    (sortedStations : List ℤ) : List ℤ :=
  let filtered := select_intersecting_with_interval g startStation endStation sortedStations
  let gauges := get_gauges ((weakComponents filtered).map toL)
  let filteredStations := intervalSlice sortedStations startStation endStation
  gauges.filter (fun st => !filteredStations.contains st)

/-- `Selection.select_only_in_interval`: the intersecting selection followed
by `remove_node` (which also removes incident edges) for every node whose
station lies outside the interval. -/
def select_only_in_interval (g : DiGraphM) (startStation endStation : ℤ)
    (sortedStations : List ℤ) : DiGraphM :=
  let filtered := select_intersecting_with_interval g startStation endStation sortedStations
  let stationsToDelete := stations_to_delete g startStation endStation sortedStations
  ⟨filtered.nodes.filter (fun v => ¬ stationsToDelete.contains v.1),
    filtered.edges.filter (fun e =>
      ¬ stationsToDelete.contains e.1.1 ∧ ¬ stationsToDelete.contains e.2.1)⟩

/-- The height check of `Selection.select_by_water_level`:
`"high" ↦ "red"`, `"low" ↦ "yellow"`, anything else raises. -/
def heightToColor (height : String) : Except String String :=
  if height = "high" then Except.ok "red"
  else if height = "low" then Except.ok "yellow"
  else Except.error "Height can be either high or low."

/-- `Selection.select_by_water_level`.  `colorOf` models the lookup
`node_colors[list(positions.keys()).index(node)]`.  The `for x, y in
start_end` unpacking succeeds only when every extracted wave has exactly two
nodes (otherwise Python raises `ValueError`), and the recomputed
`nx.shortest_path` may raise; both are modelled by `Except.error`. -/
def select_by_water_level (g : DiGraphM) (station : ℤ) (colorOf : Node → String)
    (height : String) : Except String DiGraphM := do
  let c ← heightToColor height
  let startEnd := get_flood_waves g
  let pairs ← startEnd.mapM (fun w =>
    match w with
    | [x, y] => Except.ok (x, y)
    | _ => Except.error "cannot unpack wave")
  let waves ← pairs.mapM (fun p =>
    match shortest_path g p.1 p.2 with
    | some w => Except.ok w
    | none => Except.error "no path")
  let kept := waves.filter (fun w =>
    is_gauge_in_comp station w &&
      (w.filter (fun v => v.1 == station)).any (fun v => colorOf v == c))
  let ne := nodes_and_edges kept g.edges
  Except.ok (buildGraph ne.1 ne.2)

/-! ## Analysis: `GraphAnalysis` -/

/-- The day differences gathered by `GraphAnalysis.propagation_time` through
`connected_components_iter`: one entry per pair of a start-station node and an
end-station node of a common weakly connected component joined by a directed
path (`NetworkXNoPath` is skipped). -/
def prop_times_total (g : DiGraphM) (startStation endStation : ℤ) : List ℤ :=
  (weakComponents g).flatMap (fun comp =>
    let startNodes := (toL comp).filter (fun v => v.1 == startStation)
    let endNodes := (toL comp).filter (fun v => v.1 == endStation)
    startNodes.flatMap (fun s =>
      endNodes.filterMap (fun e =>
        if (shortest_path g s e).isSome then some (e.2 - s.2) else none)))

/-- `GraphAnalysis.propagation_time`: `sum / len` when `sum(...)` is truthy
(non-zero), and `0` otherwise. -/
def propagation_time (g : DiGraphM) (startStation endStation : ℤ) : ℚ :=
  let total := prop_times_total g startStation endStation
  if total.sum ≠ 0 then (total.sum : ℚ) / (total.length : ℚ) else 0

/-- Modelled from the spec:
`AnalysisHandler.get_start_and_end_node_of_slowest_and_longest_flood_wave` is
called by `GraphAnalysis.calculate_all_velocities` but its definition is
missing from the source tree.  Per spec §4.6 a wave's velocity is taken
between its first (`w[0]`) and last (`w[-1]`) node, so the helper is modelled
as returning the first and last node of the branch. -/
def get_start_and_end_node_of_slowest_and_longest_flood_wave (branch : List Node) :
    Node × Node :=
  (branch.headD (0, 0), branch.getLastD (0, 0))

/-- One velocity of `GraphAnalysis.calculate_all_velocities`:
`distance = river_kms[start] - river_kms[end]`, and `velocity = distance`
when `days = 0`, else `distance / days`. -/
def branch_velocity (riverKms : ℤ → ℚ) (branch : List Node) : ℚ :=
  let se := get_start_and_end_node_of_slowest_and_longest_flood_wave branch
  let distance := riverKms se.1.1 - riverKms se.2.1
  let days := se.2.2 - se.1.2
  if days = 0 then distance else distance / (days : ℚ)

/-! ## Specification-side notions used to state the theorems -/

/-- One undirected step between `a` and a node `b` of `g`. -/
def ConnStep (g : DiGraphM) (a b : Node) : Prop := nadj g a b ∧ b ∈ g.nodes

/-- Weak connectivity: the reflexive-transitive closure of undirected steps. -/
def Conn (g : DiGraphM) : Node → Node → Prop := Relation.ReflTransGen (ConnStep g)

/-- The nodes `select_by_station` is specified to keep: nodes of `g` weakly
connected to some node at the requested station. -/
def keptPred (g : DiGraphM) (station : ℤ) (v : Node) : Prop :=
  v ∈ g.nodes ∧ ∃ u, u ∈ g.nodes ∧ u.1 = station ∧ Conn g v u

/-- The nodes `select_intersecting_with_interval` is specified to keep: nodes
of `g` weakly connected to some node at a station of the interval slice. -/
def keptPredI (g : DiGraphM) (slice : List ℤ) (v : Node) : Prop :=
  v ∈ g.nodes ∧ ∃ u, u ∈ g.nodes ∧ u.1 ∈ slice ∧ Conn g v u

/-! ## Concrete instances used by counterexamples and witnesses -/

/-- A concrete graph: one source `(2,0)`, a sink `(1,1)`, an interior node
`(3,1)` and a second sink `(3,2)` that the station filter `float(x[0]) >
float(y[0])` hides from the final pairs. -/
def cexGraph : DiGraphM :=
  ⟨{(2, 0), (1, 1), (3, 1), (3, 2)},
    {((2, 0), (1, 1)), ((2, 0), (3, 1)), ((3, 1), (3, 2)), ((2, 0), (3, 2))}⟩

/-- Node colours for `cexGraph`: the station-1 node `(1,1)` is red (high). -/
def cexColor : Node → String := fun v => if v = (1, 1) then "red" else "yellow"

/-- The graph `select_by_water_level` returns on `cexGraph`. -/
def cexResult : DiGraphM :=
  ((select_by_water_level cexGraph 1 cexColor "high").toOption).getD ⟨∅, ∅⟩

/-- A two-node, one-edge graph: `(2,0) → (1,1)`. -/
def pairGraph : DiGraphM := ⟨{(2, 0), (1, 1)}, {((2, 0), (1, 1))}⟩

end FloodWave

namespace FloodWave

/-! ## Theorems for C1 -/

/-- Membership unfolding for the peak flag. -/
theorem get_local_peak_values_iff (x : List ℚ) (δ i : ℕ) :
    get_local_peak_values x δ i = true ↔
      ∀ k, 1 ≤ k → k ≤ δ →
        (k ≤ i ∧ x.getD (i - k) 0 < x.getD i 0) ∧
          (i + k < x.length ∧ x.getD (i + k) 0 ≤ x.getD i 0) := by
  unfold get_local_peak_values leftCond rightCond
  rw [List.all_eq_true]
  constructor
  · intro h k hk1 hk2
    have hmem : k ∈ List.range' 1 δ := by
      rw [List.mem_range'_1]
      omega
    have := h k hmem
    simp only [Bool.and_eq_true, decide_eq_true_eq] at this
    tauto
  · intro h k hmem
    rw [List.mem_range'_1] at hmem
    have := h k hmem.1 (by omega)
    simp only [Bool.and_eq_true, decide_eq_true_eq]
    tauto

/-- C1: with `n ≥ δ + 1` and `δ ≥ 1`, index `i` is flagged as a peak iff it is
at least `δ` away from both ends of the series and for every shift
`k ∈ [1, δ]` the value `x[i-k]` is strictly below `x[i]` while `x[i]` is at
least `x[i+k]`; in particular indices within `δ` of either end are never
flagged. -/
theorem peak_flag_characterization (x : List ℚ) (δ : ℕ) (hδ : 1 ≤ δ)
    (_hn : δ + 1 ≤ x.length) (i : ℕ) :
    (get_local_peak_values x δ i = true ↔
      (δ ≤ i ∧ i + δ < x.length ∧
        ∀ k, 1 ≤ k → k ≤ δ →
          x.getD (i - k) 0 < x.getD i 0 ∧ x.getD (i + k) 0 ≤ x.getD i 0)) ∧
    ((i < δ ∨ x.length ≤ i + δ) → get_local_peak_values x δ i = false) := by
  have hiff := get_local_peak_values_iff x δ i
  constructor
  · rw [hiff]
    constructor
    · intro h
      have hδ' := h δ hδ le_rfl
      refine ⟨hδ'.1.1, hδ'.2.1, ?_⟩
      intro k hk1 hk2
      exact ⟨(h k hk1 hk2).1.2, (h k hk1 hk2).2.2⟩
    · rintro ⟨h1, h2, h3⟩ k hk1 hk2
      exact ⟨⟨by omega, (h3 k hk1 hk2).1⟩, ⟨by omega, (h3 k hk1 hk2).2⟩⟩
  · intro hedge
    by_contra hne
    have hpk : get_local_peak_values x δ i = true := by
      cases h : get_local_peak_values x δ i with
      | false => exact absurd h hne
      | true => rfl
    rw [hiff] at hpk
    have := hpk δ hδ le_rfl
    omega

/-- C2: a downstream peak date `dv` is selected for edge creation from the
upstream peak `du` iff `dv` is a peak of the downstream gauge and
`du - α_u ≤ dv ≤ du + β_u`; consequently every edge produced by `find_edges`
satisfies the date-window condition for the tolerances of its upstream gauge. -/
theorem edge_window_characterization (gauges : List ℤ) (peaksOf : ℤ → List ℤ)
    (backwardDict forwardDict : ℤ → ℤ) :
    (∀ u du dv, dv ∈ find_dates_for_next_gauge du (backwardDict u) (peaksOf u) (forwardDict u) ↔
      dv ∈ peaksOf u ∧ du - backwardDict u ≤ dv ∧ dv ≤ du + forwardDict u) ∧
    (∀ u du v dv, (u, du, v, dv) ∈ find_edges gauges peaksOf backwardDict forwardDict →
      du ∈ peaksOf u ∧ dv ∈ peaksOf v ∧ du - backwardDict u ≤ dv ∧ dv ≤ du + forwardDict u) := by
  have hfilter : ∀ (cands : List ℤ) (date bwd fwd dv : ℤ),
      dv ∈ find_dates_for_next_gauge date bwd cands fwd ↔
        dv ∈ cands ∧ date - bwd ≤ dv ∧ dv ≤ date + fwd := by
    intro cands date bwd fwd dv
    unfold find_dates_for_next_gauge filter_for_start_and_length
    simp only [List.mem_filter, Bool.and_eq_true, decide_eq_true_eq]
  refine ⟨fun u du dv => hfilter (peaksOf u) du (backwardDict u) (forwardDict u) dv, ?_⟩
  intro u du v dv hmem
  unfold find_edges at hmem
  simp only [List.mem_flatMap, List.mem_map] at hmem
  obtain ⟨p, _, du', hdu', dv', hdv', heq⟩ := hmem
  simp only [Prod.mk.injEq] at heq
  obtain ⟨rfl, rfl, rfl, rfl⟩ := heq
  have := (hfilter (peaksOf p.2) du' (backwardDict p.1) (forwardDict p.1) dv').mp hdv'
  exact ⟨hdu', this.1, this.2.1, this.2.2⟩

/-- Witness for C2 at the concrete scenario of spec §8 S3: gauges `[2, 1]`,
upstream peak day 10, downstream peaks days 10, 11, 12, `α = 0`, `β = 2`. -/
theorem edge_window_characterization_witness :
    (2, 10, 1, 11) ∈
        find_edges [2, 1] (fun g => if g = 2 then [10] else [10, 11, 12])
          (fun _ => 0) (fun _ => 2) ∧
      (10 : ℤ) ∈ (fun g : ℤ => if g = 2 then [10] else [10, 11, 12]) 2 ∧
        (11 : ℤ) ∈ (fun g : ℤ => if g = 2 then [10] else [10, 11, 12]) 1 ∧
        (10 : ℤ) - 0 ≤ 11 ∧ (11 : ℤ) ≤ 10 + 2 :=
  ⟨by decide,
    (edge_window_characterization [2, 1] (fun g => if g = 2 then [10] else [10, 11, 12])
          (fun _ => 0) (fun _ => 2)).2 2 10 1 11 (by decide)⟩

/-- C3 counterexample: with null points `0`, upstream river km `100`,
downstream river km `80`, upstream level `0` and downstream level `20`, the
slope computed by `SlopeCalculator.get_slopes` is `-1`, not the claimed
`(level_v - level_u) / (river_km_u - river_km_v) = 1`. -/
theorem slope_claim_counterexample :
    get_slopes ⟨0, 0, 100, 80⟩ 0 20 ≠ (20 - 0) / (100 - 80) := by
  unfold get_slopes SlopeData.distance
  norm_num

/-- C3 amended: the slope attached to an edge is
`((level_u + null_u) - (level_v + null_v)) / (river_km_u - river_km_v)` — the
negative of the claimed value, with the station null points added to the
levels — and when river km strictly decreases downstream the denominator used
by the code, `river_km_v - river_km_u`, is strictly negative. -/
theorem slope_code_formula (d : SlopeData) (lu lv : ℚ)
    (h : d.nextRiverKm < d.currentRiverKm) :
    get_slopes d lu lv =
        ((lu + d.currentNull) - (lv + d.nextNull)) / (d.currentRiverKm - d.nextRiverKm) ∧
      d.distance < 0 := by
  constructor
  · unfold get_slopes SlopeData.distance
    rw [← neg_div_neg_eq]
    ring_nf
  · unfold SlopeData.distance
    linarith

/-- Witness for C3's amended theorem at the counterexample's input. -/
theorem slope_code_formula_witness :
    get_slopes ⟨0, 0, 100, 80⟩ 0 20 =
        ((0 + 0) - (20 + 0)) / ((100 : ℚ) - 80) ∧ SlopeData.distance ⟨0, 0, 100, 80⟩ < 0 :=
  slope_code_formula ⟨0, 0, 100, 80⟩ 0 20 (by norm_num)

/-! ## Basic facts about the vertex-set enumeration -/

theorem mem_toL {s : Finset Node} {v : Node} : v ∈ toL s ↔ v ∈ s := by
  rcases s with ⟨m, hm⟩
  revert hm
  induction m using Quot.inductionOn with
  | _ l =>
    intro hm
    show v ∈ List.insertionSort nodeLe l ↔ _
    rw [(List.perm_insertionSort nodeLe l).mem_iff]
    simp [Finset.mem_mk]

/-! ## Theorems for C4 -/

/-- C4: `get_final_pairs` yields exactly the pairs of an in-degree-0 node and
an out-degree-0 node of the component whose stations — equivalently, by
strict monotonicity of river km in the station id, whose river kilometres —
strictly decrease from the first to the second element. -/
theorem final_pairs_characterization (g : DiGraphM) (comp : List Node)
    (riverKm : ℤ → ℚ) (hmono : StrictMono riverKm) (s t : Node) :
    (s, t) ∈ get_final_pairs g comp ↔
      s ∈ comp ∧ in_degree g s = 0 ∧ t ∈ comp ∧ out_degree g t = 0 ∧
        riverKm t.1 < riverKm s.1 := by
  unfold get_final_pairs
  simp only [List.mem_filter, List.mem_flatMap, List.mem_map, decide_eq_true_eq, beq_iff_eq]
  constructor
  · rintro ⟨⟨x, hx, y, hy, hxy⟩, hlt⟩
    obtain ⟨rfl, rfl⟩ := Prod.mk.injEq .. |>.mp hxy
    exact ⟨hx.1, hx.2, hy.1, hy.2, hmono hlt⟩
  · rintro ⟨hs, hsd, ht, htd, hlt⟩
    exact ⟨⟨s, ⟨hs, hsd⟩, t, ⟨ht, htd⟩, rfl⟩, hmono.lt_iff_lt.mp hlt⟩

/-- Witness for C4: the two-node graph `pairGraph` with source `(2,0)` and
sink `(1,1)` and the identity river-km embedding. -/
theorem final_pairs_characterization_witness :
    (((2, 0) : Node), ((1, 1) : Node)) ∈ get_final_pairs pairGraph [(2, 0), (1, 1)] ↔
      ((2, 0) : Node) ∈ ([(2, 0), (1, 1)] : List Node) ∧
        in_degree pairGraph (2, 0) = 0 ∧
        ((1, 1) : Node) ∈ ([(2, 0), (1, 1)] : List Node) ∧
        out_degree pairGraph (1, 1) = 0 ∧
        (Int.cast (((1, 1) : Node).1) : ℚ) < Int.cast (((2, 0) : Node).1) :=
  final_pairs_characterization pairGraph [(2, 0), (1, 1)] Int.cast
    Int.cast_strictMono (2, 0) (1, 1)

/-! ## Theorems for C10 -/

/-- C10: the height check of `select_by_water_level` raises iff the height
argument is neither `"high"` nor `"low"`, and maps `"high"` to the colour
`"red"` and `"low"` to `"yellow"`. -/
theorem water_level_height_check (h : String) :
    ((∃ msg, heightToColor h = Except.error msg) ↔ ¬(h = "high" ∨ h = "low")) ∧
      heightToColor "high" = Except.ok "red" ∧
      heightToColor "low" = Except.ok "yellow" := by
  refine ⟨?_, by simp [heightToColor], by simp [heightToColor]⟩
  unfold heightToColor
  by_cases h1 : h = "high"
  · simp [h1]
  · by_cases h2 : h = "low"
    · simp [h1, h2]
    · simp [h1, h2]

/-! ## Theorems for C8 -/

/-- C8: for a wave whose first node is strictly upstream of its last node (the
`FloodWave` invariant of the data model), the velocity equals
`(river_km(first) - river_km(last)) / days` when `days > 0` — and is then
non-negative — while for `days = 0` it is the km distance itself. -/
theorem velocity_formula (riverKms : ℤ → ℚ) (branch : List Node)
    (hkm : riverKms (branch.getLastD (0, 0)).1 < riverKms (branch.headD (0, 0)).1) :
    ((branch.getLastD (0, 0)).2 - (branch.headD (0, 0)).2 = 0 →
      branch_velocity riverKms branch =
        riverKms (branch.headD (0, 0)).1 - riverKms (branch.getLastD (0, 0)).1) ∧
    (0 < (branch.getLastD (0, 0)).2 - (branch.headD (0, 0)).2 →
      branch_velocity riverKms branch =
        (riverKms (branch.headD (0, 0)).1 - riverKms (branch.getLastD (0, 0)).1) /
          ((((branch.getLastD (0, 0)).2 - (branch.headD (0, 0)).2 : ℤ) : ℚ)) ∧
      0 ≤ branch_velocity riverKms branch) := by
  simp only [branch_velocity, get_start_and_end_node_of_slowest_and_longest_flood_wave]
  constructor
  · intro h0
    rw [if_pos h0]
  · intro hpos
    have hne : (branch.getLastD (0, 0)).2 - (branch.headD (0, 0)).2 ≠ 0 := by omega
    rw [if_neg hne]
    refine ⟨rfl, ?_⟩
    apply div_nonneg
    · linarith
    · exact_mod_cast hpos.le

/-- Witness for C8 at the concrete wave `[(2,0), (1,1)]` (one day, one km). -/
theorem velocity_formula_witness :
    ((([(2, 0), (1, 1)] : List Node).getLastD (0, 0)).2 -
          (([(2, 0), (1, 1)] : List Node).headD (0, 0)).2 = 0 →
      branch_velocity Int.cast [(2, 0), (1, 1)] =
        Int.cast ((([(2, 0), (1, 1)] : List Node).headD (0, 0)).1) -
          Int.cast ((([(2, 0), (1, 1)] : List Node).getLastD (0, 0)).1)) ∧
    (0 < (([(2, 0), (1, 1)] : List Node).getLastD (0, 0)).2 -
          (([(2, 0), (1, 1)] : List Node).headD (0, 0)).2 →
      branch_velocity Int.cast [(2, 0), (1, 1)] =
        (Int.cast ((([(2, 0), (1, 1)] : List Node).headD (0, 0)).1) -
            Int.cast ((([(2, 0), (1, 1)] : List Node).getLastD (0, 0)).1)) /
          ((((([(2, 0), (1, 1)] : List Node).getLastD (0, 0)).2 -
              (([(2, 0), (1, 1)] : List Node).headD (0, 0)).2 : ℤ) : ℚ)) ∧
      0 ≤ branch_velocity Int.cast [(2, 0), (1, 1)]) :=
  velocity_formula Int.cast [(2, 0), (1, 1)] (by norm_num)

/-! ## Theorems for C6 -/

/-- C6: `propagation_time` returns the arithmetic mean of the collected day
differences (one per source-node/end-node pair joined by a path) and `0` on
the empty collection: the code's branch on `sum(...) != 0` coincides with the
mean because a non-empty collection with zero sum has mean zero. -/
theorem propagation_time_is_mean (g : DiGraphM) (a b : ℤ) :
    propagation_time g a b =
      if prop_times_total g a b = [] then 0
      else ((prop_times_total g a b).sum : ℚ) / ((prop_times_total g a b).length : ℚ) := by
  unfold propagation_time
  by_cases hnil : prop_times_total g a b = []
  · simp [hnil]
  · rw [if_neg hnil]
    by_cases hsum : (prop_times_total g a b).sum ≠ 0
    · rw [if_pos hsum]
    · push_neg at hsum
      rw [if_neg (by simpa using hsum), hsum]
      simp

/-! ## Theorems for C9 -/

theorem walks_ne_of_shortestLen {g : DiGraphM} {s t : Node} {k : ℕ}
    (h : shortestLen g s t = some k) : walks g k s t ≠ [] := by
  unfold shortestLen at h
  have := List.find?_some h
  simpa using this

theorem all_shortest_paths_ne_nil {g : DiGraphM} {s t : Node} {l : List (List Node)}
    (h : all_shortest_paths g s t = some l) : l ≠ [] := by
  unfold all_shortest_paths at h
  cases hk : shortestLen g s t with
  | none => rw [hk] at h; simp at h
  | some k =>
    rw [hk] at h
    simp only [Option.map_some', Option.some.injEq] at h
    exact h ▸ walks_ne_of_shortestLen hk

theorem pairs_collapsed_le (g : DiGraphM) (ps : List (Node × Node)) :
    (ps.filterMap (fun p => shortest_path g p.1 p.2)).length ≤
      ((ps.filterMap (fun p => all_shortest_paths g p.1 p.2)).map List.length).sum := by
  induction ps with
  | nil => simp
  | cons p ps ih =>
    cases h : all_shortest_paths g p.1 p.2 with
    | none =>
      have hsp : shortest_path g p.1 p.2 = none := by
        unfold shortest_path
        rw [h]
        rfl
      simp only [List.filterMap_cons, h, hsp]
      exact ih
    | some l =>
      have hne := all_shortest_paths_ne_nil h
      cases l with
      | nil => exact absurd rfl hne
      | cons w l' =>
        have hsp : shortest_path g p.1 p.2 = some w := by
          unfold shortest_path
          rw [h]
          rfl
        simp only [List.filterMap_cons, h, hsp, List.map_cons, List.sum_cons,
          List.length_cons]
        omega

/-- C9: the number of waves of equivalence-collapsed extraction is at most the
total number of shortest paths produced by expanded extraction: every
connected final pair contributes one wave to the former and at least one
shortest path to the latter. -/
theorem collapsed_waves_le_expanded_paths (g : DiGraphM) :
    (get_flood_waves g).length ≤
      ((get_flood_waves_without_equivalence g).map List.length).sum := by
  unfold get_flood_waves get_flood_waves_without_equivalence
  generalize weakComponents g = L
  induction L with
  | nil => simp
  | cons c cs ih =>
    simp only [List.flatMap_cons, List.map_append, List.sum_append, List.length_append]
    exact Nat.add_le_add (pairs_collapsed_le g _) ih

/-! ## Weak-connectivity machinery shared by the selection theorems -/

theorem nadj_symm {g : DiGraphM} {a b : Node} (h : nadj g a b) : nadj g b a :=
  h.elim Or.inr Or.inl

theorem nadj_of_edge {g : DiGraphM} {e : Node × Node} (he : e ∈ g.edges) :
    nadj g e.1 e.2 := by
  left
  rw [Prod.mk.eta]
  exact he

theorem closeStep_subset_nodes (g : DiGraphM) (cur : Finset Node) :
    closeStep g cur ⊆ g.nodes := Finset.filter_subset _ _

theorem subset_closeStep {g : DiGraphM} {cur : Finset Node} (h : cur ⊆ g.nodes) :
    cur ⊆ closeStep g cur := by
  intro v hv
  unfold closeStep
  rw [Finset.mem_filter]
  exact ⟨h hv, Or.inl hv⟩

theorem subset_closeIter (g : DiGraphM) (k : ℕ) (cur : Finset Node) (h : cur ⊆ g.nodes) :
    cur ⊆ closeIter g k cur := by
  induction k generalizing cur with
  | zero => exact fun v hv => hv
  | succ k ih =>
    unfold closeIter
    by_cases hfix : closeStep g cur = cur
    · rw [if_pos hfix]
    · rw [if_neg hfix]
      exact (subset_closeStep h).trans (ih _ (closeStep_subset_nodes g cur))

theorem closeIter_subset_nodes (g : DiGraphM) (k : ℕ) (cur : Finset Node)
    (h : cur ⊆ g.nodes) : closeIter g k cur ⊆ g.nodes := by
  induction k generalizing cur with
  | zero => exact h
  | succ k ih =>
    unfold closeIter
    by_cases hfix : closeStep g cur = cur
    · rw [if_pos hfix]
      exact h
    · rw [if_neg hfix]
      exact ih _ (closeStep_subset_nodes g cur)

theorem closeIter_fixed (g : DiGraphM) :
    ∀ (k : ℕ) (cur : Finset Node), cur ⊆ g.nodes → g.nodes.card ≤ k + cur.card →
      closeStep g (closeIter g k cur) = closeIter g k cur := by
  intro k
  induction k with
  | zero =>
    intro cur hsub hcard
    have he : cur = g.nodes := Finset.eq_of_subset_of_card_le hsub (by simpa using hcard)
    show closeStep g cur = cur
    rw [he]
    apply Finset.filter_true_of_mem
    intro v hv
    exact Or.inl hv
  | succ k ih =>
    intro cur hsub hcard
    unfold closeIter
    by_cases hfix : closeStep g cur = cur
    · rw [if_pos hfix]
      exact hfix
    · rw [if_neg hfix]
      apply ih _ (closeStep_subset_nodes g cur)
      have hss : cur ⊂ closeStep g cur :=
        Finset.ssubset_iff_subset_ne.mpr ⟨subset_closeStep hsub, fun he => hfix he.symm⟩
      have := Finset.card_lt_card hss
      omega

theorem component_fixed {g : DiGraphM} {v : Node} (hv : v ∈ g.nodes) :
    closeStep g (component g v) = component g v := by
  apply closeIter_fixed g g.nodes.card {v} (Finset.singleton_subset_iff.mpr hv)
  simp

theorem mem_component_self {g : DiGraphM} {v : Node} (hv : v ∈ g.nodes) :
    v ∈ component g v :=
  subset_closeIter g g.nodes.card {v} (Finset.singleton_subset_iff.mpr hv)
    (Finset.mem_singleton_self v)

theorem component_subset_nodes {g : DiGraphM} {v : Node} (hv : v ∈ g.nodes) :
    component g v ⊆ g.nodes :=
  closeIter_subset_nodes g g.nodes.card {v} (Finset.singleton_subset_iff.mpr hv)

theorem component_closed {g : DiGraphM} {v u w : Node} (hv : v ∈ g.nodes)
    (hu : u ∈ component g v) (hadj : nadj g u w) (hw : w ∈ g.nodes) :
    w ∈ component g v := by
  rw [← component_fixed hv]
  unfold closeStep
  rw [Finset.mem_filter]
  exact ⟨hw, Or.inr ⟨u, hu, hadj⟩⟩

theorem closeIter_conn (g : DiGraphM) :
    ∀ (k : ℕ) (cur : Finset Node) (v : Node), (∀ u ∈ cur, Conn g v u) →
      ∀ u ∈ closeIter g k cur, Conn g v u := by
  intro k
  induction k with
  | zero =>
    intro cur v h u hu
    exact h u hu
  | succ k ih =>
    intro cur v h u hu
    unfold closeIter at hu
    by_cases hfix : closeStep g cur = cur
    · rw [if_pos hfix] at hu
      exact h u hu
    · rw [if_neg hfix] at hu
      refine ih _ v ?_ u hu
      intro w hw
      unfold closeStep at hw
      rw [Finset.mem_filter] at hw
      rcases hw.2 with hmem | ⟨t, ht, hadj⟩
      · exact h w hmem
      · exact (h t ht).tail ⟨hadj, hw.1⟩

theorem mem_component_conn {g : DiGraphM} {v u : Node} (hu : u ∈ component g v) :
    Conn g v u := by
  refine closeIter_conn g g.nodes.card {v} v ?_ u hu
  intro w hw
  rw [Finset.mem_singleton] at hw
  rw [hw]
  exact Relation.ReflTransGen.refl

theorem conn_mem_component {g : DiGraphM} {v u : Node} (hv : v ∈ g.nodes)
    (h : Conn g v u) : u ∈ component g v := by
  induction h with
  | refl => exact mem_component_self hv
  | tail _ hbc ih => exact component_closed hv ih hbc.1 hbc.2

theorem conn_mem_nodes {g : DiGraphM} {v u : Node} (hv : v ∈ g.nodes)
    (h : Conn g v u) : u ∈ g.nodes := by
  induction h with
  | refl => exact hv
  | tail _ hbc _ => exact hbc.2

theorem conn_symm {g : DiGraphM} {v u : Node} (hv : v ∈ g.nodes)
    (h : Conn g v u) : Conn g u v := by
  induction h with
  | refl => exact Relation.ReflTransGen.refl
  | tail hab hbc ih =>
    exact Relation.ReflTransGen.head ⟨nadj_symm hbc.1, conn_mem_nodes hv hab⟩ ih

theorem compFold_preserve {g : DiGraphM} (l : List Node) (acc : List (Finset Node))
    (c : Finset Node) (hc : c ∈ acc) : c ∈ l.foldl (compFold g) acc := by
  induction l generalizing acc with
  | nil => exact hc
  | cons w l ih =>
    simp only [List.foldl_cons]
    apply ih
    unfold compFold
    by_cases hw : (acc.any fun c => decide (w ∈ c)) = true
    · rw [if_pos hw]
      exact hc
    · rw [if_neg hw]
      exact List.mem_append_left _ hc

theorem compFold_cover (g : DiGraphM) :
    ∀ (l : List Node) (acc : List (Finset Node)) (v : Node), v ∈ l → v ∈ g.nodes →
      ∃ c ∈ l.foldl (compFold g) acc, v ∈ c := by
  intro l
  induction l with
  | nil =>
    intro acc v hv
    exact absurd hv (List.not_mem_nil v)
  | cons w l ih =>
    intro acc v hv hvn
    simp only [List.foldl_cons]
    rcases List.mem_cons.mp hv with rfl | hv'
    · by_cases hw : (acc.any fun c => decide (v ∈ c)) = true
      · rcases List.any_eq_true.mp hw with ⟨c, hc, hvc⟩
        refine ⟨c, compFold_preserve _ _ _ ?_, of_decide_eq_true hvc⟩
        unfold compFold
        rw [if_pos hw]
        exact hc
      · refine ⟨component g v, compFold_preserve _ _ _ ?_, mem_component_self hvn⟩
        unfold compFold
        rw [if_neg hw]
        exact List.mem_append_right _ (List.mem_singleton_self _)
    · exact ih _ v hv' hvn

theorem weakComponents_cover {g : DiGraphM} {v : Node} (hv : v ∈ g.nodes) :
    ∃ c ∈ weakComponents g, v ∈ c := by
  unfold weakComponents
  exact compFold_cover g (toL g.nodes) [] v (mem_toL.mpr hv) hv

theorem compFold_shape (g : DiGraphM) :
    ∀ (l : List Node) (acc : List (Finset Node)),
      (∀ c ∈ acc, ∃ w ∈ g.nodes, c = component g w) → (∀ x ∈ l, x ∈ g.nodes) →
      ∀ c ∈ l.foldl (compFold g) acc, ∃ w ∈ g.nodes, c = component g w := by
  intro l
  induction l with
  | nil =>
    intro acc hacc _ c hc
    exact hacc c hc
  | cons x l ih =>
    intro acc hacc hl c hc
    simp only [List.foldl_cons] at hc
    refine ih _ ?_ (fun y hy => hl y (List.mem_cons_of_mem _ hy)) c hc
    intro c' hc'
    unfold compFold at hc'
    by_cases hx : (acc.any fun c => decide (x ∈ c)) = true
    · rw [if_pos hx] at hc'
      exact hacc c' hc'
    · rw [if_neg hx] at hc'
      rcases List.mem_append.mp hc' with h | h
      · exact hacc c' h
      · rw [List.mem_singleton] at h
        exact ⟨x, hl x (List.mem_cons_self x l), h⟩

theorem weakComponents_shape {g : DiGraphM} {c : Finset Node}
    (hc : c ∈ weakComponents g) : ∃ w ∈ g.nodes, c = component g w := by
  unfold weakComponents at hc
  exact compFold_shape g (toL g.nodes) [] (by simp) (fun x hx => mem_toL.mp hx) c hc

/-! ## Characterisation of the selection operations -/

theorem graph_ext {g h : DiGraphM} (hn : g.nodes = h.nodes) (he : g.edges = h.edges) :
    g = h := by
  cases g
  cases h
  cases hn
  cases he
  rfl

theorem contains_int_iff {l : List ℤ} {x : ℤ} : l.contains x = true ↔ x ∈ l := by
  constructor
  · intro h
    exact List.mem_of_elem_eq_true h
  · intro h
    exact List.elem_eq_true_of_mem h

theorem contains_node_iff {l : List Node} {x : Node} : l.contains x = true ↔ x ∈ l := by
  constructor
  · intro h
    exact List.mem_of_elem_eq_true h
  · intro h
    exact List.elem_eq_true_of_mem h

theorem is_gauge_in_comp_iff {station : ℤ} {l : List Node} :
    is_gauge_in_comp station l = true ↔ ∃ v ∈ l, v.1 = station := by
  unfold is_gauge_in_comp
  rw [List.any_eq_true]
  constructor
  · rintro ⟨v, hv, hb⟩
    exact ⟨v, hv, by simpa using hb⟩
  · rintro ⟨v, hv, he⟩
    exact ⟨v, hv, by simpa using he⟩

theorem mem_nodes_and_edges_fst {comps : List (List Node)} {edges : Finset (Node × Node)}
    {v : Node} : v ∈ (nodes_and_edges comps edges).1 ↔ ∃ c ∈ comps, v ∈ c := by
  unfold nodes_and_edges
  simp [List.mem_flatMap]

theorem mem_nodes_and_edges_snd {comps : List (List Node)} {edges : Finset (Node × Node)}
    {e : Node × Node} :
    e ∈ (nodes_and_edges comps edges).2 ↔ e ∈ edges ∧ ∃ c ∈ comps, e.1 ∈ c := by
  unfold nodes_and_edges
  rw [Finset.mem_filter]
  apply and_congr_right
  intro _
  rw [List.any_eq_true]
  constructor
  · rintro ⟨c, hc, hcont⟩
    exact ⟨c, hc, contains_node_iff.mp hcont⟩
  · rintro ⟨c, hc, hmem⟩
    exact ⟨c, hc, contains_node_iff.mpr hmem⟩

theorem mem_kept_comps (g : DiGraphM) (station : ℤ) (v : Node) :
    (∃ c ∈ ((weakComponents g).map toL).filter (fun c => is_gauge_in_comp station c),
        v ∈ c) ↔ keptPred g station v := by
  constructor
  · rintro ⟨c, hc, hvc⟩
    rw [List.mem_filter] at hc
    rcases List.mem_map.mp hc.1 with ⟨c', hc', rfl⟩
    rcases weakComponents_shape hc' with ⟨w, hw, rfl⟩
    have hvcomp : v ∈ component g w := mem_toL.mp hvc
    rcases is_gauge_in_comp_iff.mp hc.2 with ⟨u, hu, hust⟩
    have hucomp : u ∈ component g w := mem_toL.mp hu
    exact ⟨component_subset_nodes hw hvcomp, u, component_subset_nodes hw hucomp, hust,
      (conn_symm hw (mem_component_conn hvcomp)).trans (mem_component_conn hucomp)⟩
  · rintro ⟨hvn, u, hun, hust, hconn⟩
    rcases weakComponents_cover hvn with ⟨c, hc, hvc⟩
    rcases weakComponents_shape hc with ⟨w, hw, rfl⟩
    have hconnwu : Conn g w u := (mem_component_conn hvc).trans hconn
    refine ⟨toL (component g w), ?_, mem_toL.mpr hvc⟩
    rw [List.mem_filter]
    exact ⟨List.mem_map_of_mem toL hc,
      is_gauge_in_comp_iff.mpr ⟨u, mem_toL.mpr (conn_mem_component hw hconnwu), hust⟩⟩

theorem select_by_station_edges {g : DiGraphM} {station : ℤ} {e : Node × Node} :
    e ∈ (select_by_station g station).edges ↔ e ∈ g.edges ∧ keptPred g station e.1 := by
  simp only [select_by_station, buildGraph]
  rw [mem_nodes_and_edges_snd]
  exact and_congr_right fun _ => mem_kept_comps g station e.1

theorem select_by_station_nodes {g : DiGraphM} (hwf : WF g) {station : ℤ} {v : Node} :
    v ∈ (select_by_station g station).nodes ↔ keptPred g station v := by
  simp only [select_by_station, buildGraph, Finset.mem_union, List.mem_toFinset,
    Finset.mem_image]
  constructor
  · rintro ((hn | ⟨e, he, rfl⟩) | ⟨e, he, rfl⟩)
    · exact (mem_kept_comps g station _).mp (mem_nodes_and_edges_fst.mp hn)
    · exact (mem_kept_comps g station _).mp (mem_nodes_and_edges_snd.mp he).2
    · rcases mem_nodes_and_edges_snd.mp he with ⟨heg, hcomp⟩
      obtain ⟨h1n, u, hun, hust, hconn⟩ := (mem_kept_comps g station _).mp hcomp
      exact ⟨(hwf e heg).2, u, hun, hust,
        Relation.ReflTransGen.head ⟨nadj_symm (nadj_of_edge heg), h1n⟩ hconn⟩
  · intro hk
    exact Or.inl (Or.inl (mem_nodes_and_edges_fst.mpr ((mem_kept_comps g station _).mpr hk)))

theorem buildGraph_wf (nodes : List Node) (edges : Finset (Node × Node)) :
    WF (buildGraph nodes edges) := by
  intro e he
  exact ⟨Finset.mem_union_left _ (Finset.mem_union_right _ (Finset.mem_image_of_mem _ he)),
    Finset.mem_union_right _ (Finset.mem_image_of_mem _ he)⟩

theorem select_by_station_wf (g : DiGraphM) (station : ℤ) :
    WF (select_by_station g station) := by
  unfold select_by_station
  exact buildGraph_wf _ _

theorem conn_transfer {g : DiGraphM} (hwf : WF g) {station : ℤ} {u : Node}
    (hun : u ∈ g.nodes) (hust : u.1 = station) :
    ∀ {v : Node}, Conn g v u → v ∈ g.nodes → Conn (select_by_station g station) v u := by
  intro v hconn
  induction hconn using Relation.ReflTransGen.head_induction_on with
  | refl =>
    intro _
    exact Relation.ReflTransGen.refl
  | head hstep hrest ih =>
    rename_i x y
    intro hvn
    have hmn := hstep.2
    have hka : keptPred g station x :=
      ⟨hvn, u, hun, hust, Relation.ReflTransGen.head hstep hrest⟩
    have hkc : keptPred g station y := ⟨hmn, u, hun, hust, hrest⟩
    have hcS := (select_by_station_nodes hwf).mpr hkc
    have hadjS : nadj (select_by_station g station) x y := by
      rcases hstep.1 with hac | hca
      · exact Or.inl (select_by_station_edges.mpr ⟨hac, hka⟩)
      · exact Or.inr (select_by_station_edges.mpr ⟨hca, hkc⟩)
    exact Relation.ReflTransGen.head ⟨hadjS, hcS⟩ (ih hmn)

theorem select_by_station_idem {g : DiGraphM} (hwf : WF g) (station : ℤ) :
    select_by_station (select_by_station g station) station = select_by_station g station := by
  have hwfS : WF (select_by_station g station) := select_by_station_wf g station
  apply graph_ext
  · ext v
    rw [select_by_station_nodes hwfS]
    constructor
    · rintro ⟨hv, _⟩
      exact hv
    · intro hv
      obtain ⟨hvn, u, hun, hust, hconn⟩ := (select_by_station_nodes hwf).mp hv
      exact ⟨hv,
        u, (select_by_station_nodes hwf).mpr ⟨hun, u, hun, hust, Relation.ReflTransGen.refl⟩,
        hust, conn_transfer hwf hun hust hconn hvn⟩
  · ext e
    rw [select_by_station_edges]
    constructor
    · rintro ⟨he, _⟩
      exact he
    · intro he
      refine ⟨he, ?_⟩
      obtain ⟨heg, hvn, u, hun, hust, hconn⟩ := select_by_station_edges.mp he
      exact ⟨(select_by_station_nodes hwf).mpr ⟨hvn, u, hun, hust, hconn⟩,
        u, (select_by_station_nodes hwf).mpr ⟨hun, u, hun, hust, Relation.ReflTransGen.refl⟩,
        hust, conn_transfer hwf hun hust hconn hvn⟩

/-! ## Characterisation of the interval selections -/

theorem get_gauges_iff {comps : List (List Node)} {st : ℤ} :
    st ∈ get_gauges comps ↔ ∃ c ∈ comps, ∃ v ∈ c, v.1 = st := by
  unfold get_gauges
  rw [List.mem_dedup, List.mem_map]
  constructor
  · rintro ⟨v, hv, rfl⟩
    rcases List.mem_flatMap.mp hv with ⟨c, hc, hvc⟩
    exact ⟨c, hc, v, hvc, rfl⟩
  · rintro ⟨c, hc, v, hvc, rfl⟩
    exact ⟨v, List.mem_flatMap.mpr ⟨c, hc, hvc⟩, rfl⟩

theorem kept_comp_filter_iff {g : DiGraphM} {slice : List ℤ} {c : List Node}
    (hc : c ∈ (weakComponents g).map toL) :
    (((get_gauges ((weakComponents g).map toL)).filter
        (fun st => slice.contains st)).any (fun st => is_gauge_in_comp st c)) = true ↔
      ∃ v ∈ c, v.1 ∈ slice := by
  rw [List.any_eq_true]
  constructor
  · rintro ⟨st, hstm, hgc⟩
    rw [List.mem_filter] at hstm
    rcases is_gauge_in_comp_iff.mp hgc with ⟨v, hvc, hv1⟩
    exact ⟨v, hvc, hv1 ▸ contains_int_iff.mp hstm.2⟩
  · rintro ⟨v, hvc, hvs⟩
    refine ⟨v.1, ?_, is_gauge_in_comp_iff.mpr ⟨v, hvc, rfl⟩⟩
    rw [List.mem_filter]
    exact ⟨get_gauges_iff.mpr ⟨c, hc, v, hvc, rfl⟩, contains_int_iff.mpr hvs⟩

theorem mem_kept_comps_interval (g : DiGraphM) (slice : List ℤ) (v : Node) :
    (∃ c ∈ ((weakComponents g).map toL).filter
        (fun c => ((get_gauges ((weakComponents g).map toL)).filter
          (fun st => slice.contains st)).any (fun st => is_gauge_in_comp st c)),
        v ∈ c) ↔ keptPredI g slice v := by
  constructor
  · rintro ⟨c, hc, hvc⟩
    rw [List.mem_filter] at hc
    rcases List.mem_map.mp hc.1 with ⟨c', hc', rfl⟩
    rcases (kept_comp_filter_iff hc.1).mp hc.2 with ⟨u, hu, hus⟩
    rcases weakComponents_shape hc' with ⟨w, hw, rfl⟩
    have hvcomp : v ∈ component g w := mem_toL.mp hvc
    have hucomp : u ∈ component g w := mem_toL.mp hu
    exact ⟨component_subset_nodes hw hvcomp, u, component_subset_nodes hw hucomp, hus,
      (conn_symm hw (mem_component_conn hvcomp)).trans (mem_component_conn hucomp)⟩
  · rintro ⟨hvn, u, hun, hus, hconn⟩
    rcases weakComponents_cover hvn with ⟨c, hc, hvc⟩
    rcases weakComponents_shape hc with ⟨w, hw, rfl⟩
    have hconnwu : Conn g w u := (mem_component_conn hvc).trans hconn
    have hcl : toL (component g w) ∈ (weakComponents g).map toL := List.mem_map_of_mem toL hc
    refine ⟨toL (component g w), ?_, mem_toL.mpr hvc⟩
    rw [List.mem_filter]
    exact ⟨hcl, (kept_comp_filter_iff hcl).mpr
      ⟨u, mem_toL.mpr (conn_mem_component hw hconnwu), hus⟩⟩

theorem select_intersecting_edges {g : DiGraphM} {a b : ℤ} {sorted : List ℤ}
    {e : Node × Node} :
    e ∈ (select_intersecting_with_interval g a b sorted).edges ↔
      e ∈ g.edges ∧ keptPredI g (intervalSlice sorted a b) e.1 := by
  simp only [select_intersecting_with_interval, buildGraph]
  rw [mem_nodes_and_edges_snd]
  exact and_congr_right fun _ => mem_kept_comps_interval g (intervalSlice sorted a b) e.1

theorem select_intersecting_nodes {g : DiGraphM} (hwf : WF g) {a b : ℤ}
    {sorted : List ℤ} {v : Node} :
    v ∈ (select_intersecting_with_interval g a b sorted).nodes ↔
      keptPredI g (intervalSlice sorted a b) v := by
  simp only [select_intersecting_with_interval, buildGraph, Finset.mem_union,
    List.mem_toFinset, Finset.mem_image]
  constructor
  · rintro ((hn | ⟨e, he, rfl⟩) | ⟨e, he, rfl⟩)
    · exact (mem_kept_comps_interval g _ _).mp (mem_nodes_and_edges_fst.mp hn)
    · exact (mem_kept_comps_interval g _ _).mp (mem_nodes_and_edges_snd.mp he).2
    · rcases mem_nodes_and_edges_snd.mp he with ⟨heg, hcomp⟩
      obtain ⟨h1n, u, hun, hus, hconn⟩ := (mem_kept_comps_interval g _ _).mp hcomp
      exact ⟨(hwf e heg).2, u, hun, hus,
        Relation.ReflTransGen.head ⟨nadj_symm (nadj_of_edge heg), h1n⟩ hconn⟩
  · intro hk
    exact Or.inl (Or.inl (mem_nodes_and_edges_fst.mpr
      ((mem_kept_comps_interval g _ _).mpr hk)))

theorem select_intersecting_wf (g : DiGraphM) (a b : ℤ) (sorted : List ℤ) :
    WF (select_intersecting_with_interval g a b sorted) := by
  unfold select_intersecting_with_interval
  exact buildGraph_wf _ _

theorem intersecting_eq_self {g : DiGraphM} (hwf : WF g) {a b : ℤ} {sorted : List ℤ}
    (hst : ∀ v ∈ g.nodes, v.1 ∈ intervalSlice sorted a b) :
    select_intersecting_with_interval g a b sorted = g := by
  apply graph_ext
  · ext v
    rw [select_intersecting_nodes hwf]
    constructor
    · rintro ⟨hv, _⟩
      exact hv
    · intro hv
      exact ⟨hv, v, hv, hst v hv, Relation.ReflTransGen.refl⟩
  · ext e
    rw [select_intersecting_edges]
    constructor
    · rintro ⟨he, _⟩
      exact he
    · intro he
      have h1 := (hwf e he).1
      exact ⟨he, h1, e.1, h1, hst _ h1, Relation.ReflTransGen.refl⟩

theorem soi_nodes {g : DiGraphM} {a b : ℤ} {sorted : List ℤ} {v : Node} :
    v ∈ (select_only_in_interval g a b sorted).nodes ↔
      v ∈ (select_intersecting_with_interval g a b sorted).nodes ∧
        ¬ (stations_to_delete g a b sorted).contains v.1 := by
  simp only [select_only_in_interval]
  rw [Finset.mem_filter]

theorem soi_edges {g : DiGraphM} {a b : ℤ} {sorted : List ℤ} {e : Node × Node} :
    e ∈ (select_only_in_interval g a b sorted).edges ↔
      e ∈ (select_intersecting_with_interval g a b sorted).edges ∧
        ¬ (stations_to_delete g a b sorted).contains e.1.1 ∧
        ¬ (stations_to_delete g a b sorted).contains e.2.1 := by
  simp only [select_only_in_interval]
  rw [Finset.mem_filter]

theorem soi_wf (g : DiGraphM) (a b : ℤ) (sorted : List ℤ) :
    WF (select_only_in_interval g a b sorted) := by
  intro e he
  rw [soi_edges] at he
  obtain ⟨hef, h1, h2⟩ := he
  have := select_intersecting_wf g a b sorted e hef
  exact ⟨soi_nodes.mpr ⟨this.1, h1⟩, soi_nodes.mpr ⟨this.2, h2⟩⟩

theorem soi_station_slice {g : DiGraphM} {a b : ℤ} {sorted : List ℤ} {v : Node}
    (hv : v ∈ (select_only_in_interval g a b sorted).nodes) :
    v.1 ∈ intervalSlice sorted a b := by
  rw [soi_nodes] at hv
  obtain ⟨hvf, hnd⟩ := hv
  by_contra hns
  apply hnd
  have hg : v.1 ∈ get_gauges
      ((weakComponents (select_intersecting_with_interval g a b sorted)).map toL) := by
    rcases weakComponents_cover hvf with ⟨c, hc, hvc⟩
    exact get_gauges_iff.mpr ⟨toL c, List.mem_map_of_mem toL hc, v, mem_toL.mpr hvc, rfl⟩
  apply contains_int_iff.mpr
  unfold stations_to_delete
  rw [List.mem_filter]
  refine ⟨hg, ?_⟩
  cases hcc : (intervalSlice sorted a b).contains v.1 with
  | true => exact absurd (contains_int_iff.mp hcc) hns
  | false => rfl

theorem stations_to_delete_nil {g : DiGraphM} {a b : ℤ} {sorted : List ℤ}
    (hshort : ∀ st ∈ get_gauges
        ((weakComponents (select_intersecting_with_interval g a b sorted)).map toL),
      st ∈ intervalSlice sorted a b) :
    stations_to_delete g a b sorted = [] := by
  unfold stations_to_delete
  rw [List.filter_eq_nil_iff]
  intro st hst2
  rw [contains_int_iff.mpr (hshort st hst2)]
  simp

theorem select_only_in_interval_idem {g : DiGraphM} (_hwf : WF g) (a b : ℤ)
    (sorted : List ℤ) :
    select_only_in_interval (select_only_in_interval g a b sorted) a b sorted =
      select_only_in_interval g a b sorted := by
  have hwf1 : WF (select_only_in_interval g a b sorted) := soi_wf g a b sorted
  have hst1 : ∀ v ∈ (select_only_in_interval g a b sorted).nodes,
      v.1 ∈ intervalSlice sorted a b := fun _ hv => soi_station_slice hv
  have hfix : select_intersecting_with_interval (select_only_in_interval g a b sorted)
      a b sorted = select_only_in_interval g a b sorted := intersecting_eq_self hwf1 hst1
  have hnil : stations_to_delete (select_only_in_interval g a b sorted) a b sorted = [] := by
    apply stations_to_delete_nil
    rw [hfix]
    intro st hst2
    rcases get_gauges_iff.mp hst2 with ⟨c, hc, v, hvc, rfl⟩
    rcases List.mem_map.mp hc with ⟨c', hc', rfl⟩
    rcases weakComponents_shape hc' with ⟨w, hw, rfl⟩
    exact hst1 v (component_subset_nodes hw (mem_toL.mp hvc))
  apply graph_ext
  · ext v
    rw [soi_nodes, hfix, hnil]
    simp
  · ext e
    rw [soi_edges, hfix, hnil]
    simp

/-! ## Theorems for C7 -/

/-- C7: the selections cited by the claim are idempotent: applying
`select_by_station` (resp. `select_only_in_interval`) to its own output
yields the same graph — the same vertex set and the same edge set. -/
theorem selection_idempotent (g : DiGraphM) (hwf : WF g) (station : ℤ)
    (startStation endStation : ℤ) (sortedStations : List ℤ) :
    select_by_station (select_by_station g station) station =
        select_by_station g station ∧
      select_only_in_interval
          (select_only_in_interval g startStation endStation sortedStations)
          startStation endStation sortedStations =
        select_only_in_interval g startStation endStation sortedStations :=
  ⟨select_by_station_idem hwf station,
    select_only_in_interval_idem hwf startStation endStation sortedStations⟩

/-- Witness for C7 on the concrete graph `pairGraph`. -/
theorem selection_idempotent_witness :
    select_by_station (select_by_station pairGraph 1) 1 = select_by_station pairGraph 1 ∧
      select_only_in_interval (select_only_in_interval pairGraph 2 1 [2, 1]) 2 1 [2, 1] =
        select_only_in_interval pairGraph 2 1 [2, 1] :=
  selection_idempotent pairGraph (by decide) 1 2 1 [2, 1]

/-! ## Theorems for C5 -/

/-- The both-endpoints edge rule holds for `select_by_station`: its kept
components are whole weakly connected components, so an edge whose source is
kept has its target in the same kept component. -/
theorem select_by_station_both_endpoints {g : DiGraphM} (hwf : WF g) (station : ℤ)
    (e : Node × Node) :
    e ∈ (select_by_station g station).edges ↔
      e ∈ g.edges ∧ e.1 ∈ (select_by_station g station).nodes ∧
        e.2 ∈ (select_by_station g station).nodes := by
  rw [select_by_station_edges]
  constructor
  · rintro ⟨he, hk⟩
    obtain ⟨h1n, u, hun, hust, hconn⟩ := hk
    refine ⟨he, (select_by_station_nodes hwf).mpr ⟨h1n, u, hun, hust, hconn⟩, ?_⟩
    refine (select_by_station_nodes hwf).mpr ⟨(hwf e he).2, u, hun, hust, ?_⟩
    exact Relation.ReflTransGen.head ⟨nadj_symm (nadj_of_edge he), h1n⟩ hconn
  · rintro ⟨he, h1, _⟩
    exact ⟨he, (select_by_station_nodes hwf).mp h1⟩

/-- The both-endpoints edge rule holds for `select_intersecting_with_interval`
for the same reason: its kept components are whole weakly connected
components. -/
theorem select_intersecting_both_endpoints {g : DiGraphM} (hwf : WF g) (a b : ℤ)
    (sorted : List ℤ) (e : Node × Node) :
    e ∈ (select_intersecting_with_interval g a b sorted).edges ↔
      e ∈ g.edges ∧ e.1 ∈ (select_intersecting_with_interval g a b sorted).nodes ∧
        e.2 ∈ (select_intersecting_with_interval g a b sorted).nodes := by
  rw [select_intersecting_edges]
  constructor
  · rintro ⟨he, hk⟩
    obtain ⟨h1n, u, hun, hus, hconn⟩ := hk
    refine ⟨he, (select_intersecting_nodes hwf).mpr ⟨h1n, u, hun, hus, hconn⟩, ?_⟩
    refine (select_intersecting_nodes hwf).mpr ⟨(hwf e he).2, u, hun, hus, ?_⟩
    exact Relation.ReflTransGen.head ⟨nadj_symm (nadj_of_edge he), h1n⟩ hconn
  · rintro ⟨he, h1, _⟩
    exact ⟨he, (select_intersecting_nodes hwf).mp h1⟩

/-- C5 amended: for the whole-component selections (`select_by_station` and
`select_intersecting_with_interval`) an edge of the input graph is in the
result iff both of its endpoints are; the general edge rule of
`nodes_and_edges`, however, keeps an edge iff its source endpoint lies in a
kept component, which for the wave-based `select_by_water_level` differs
(see the counterexample). -/
theorem component_selection_edge_rule (g : DiGraphM) (hwf : WF g) (station : ℤ)
    (startStation endStation : ℤ) (sortedStations : List ℤ) (e : Node × Node) :
    (e ∈ (select_by_station g station).edges ↔
      e ∈ g.edges ∧ e.1 ∈ (select_by_station g station).nodes ∧
        e.2 ∈ (select_by_station g station).nodes) ∧
    (e ∈ (select_intersecting_with_interval g startStation endStation
          sortedStations).edges ↔
      e ∈ g.edges ∧
        e.1 ∈ (select_intersecting_with_interval g startStation endStation
          sortedStations).nodes ∧
        e.2 ∈ (select_intersecting_with_interval g startStation endStation
          sortedStations).nodes) :=
  ⟨select_by_station_both_endpoints hwf station e,
    select_intersecting_both_endpoints hwf startStation endStation sortedStations e⟩

/-- Witness for C5's amended theorem on `pairGraph`. -/
theorem component_selection_edge_rule_witness :
    ((((2, 0), (1, 1)) : Node × Node) ∈ (select_by_station pairGraph 1).edges ↔
      (((2, 0), (1, 1)) : Node × Node) ∈ pairGraph.edges ∧
        (((2, 0), (1, 1)) : Node × Node).1 ∈ (select_by_station pairGraph 1).nodes ∧
        (((2, 0), (1, 1)) : Node × Node).2 ∈ (select_by_station pairGraph 1).nodes) ∧
    ((((2, 0), (1, 1)) : Node × Node) ∈
          (select_intersecting_with_interval pairGraph 2 1 [2, 1]).edges ↔
      (((2, 0), (1, 1)) : Node × Node) ∈ pairGraph.edges ∧
        (((2, 0), (1, 1)) : Node × Node).1 ∈
          (select_intersecting_with_interval pairGraph 2 1 [2, 1]).nodes ∧
        (((2, 0), (1, 1)) : Node × Node).2 ∈
          (select_intersecting_with_interval pairGraph 2 1 [2, 1]).nodes) :=
  component_selection_edge_rule pairGraph (by decide) 1 2 1 [2, 1] ((2, 0), (1, 1))

/-- C5 counterexample: on `cexGraph`, `select_by_water_level` keeps the edges
`(2,0)→(3,1)` and `(2,0)→(3,2)` because their source lies on the kept wave,
thereby re-adding the dropped nodes `(3,1)` and `(3,2)`; the input edge
`(3,1)→(3,2)` then has both endpoints present in the result while the edge
itself is absent, refuting the claimed equivalence for this selection. -/
theorem water_level_edge_rule_counterexample :
    (((3, 1), (3, 2)) : Node × Node) ∈ cexGraph.edges ∧
      (select_by_water_level cexGraph 1 cexColor "high").isOk = true ∧
      ((3, 1) : Node) ∈ cexResult.nodes ∧ ((3, 2) : Node) ∈ cexResult.nodes ∧
      (((3, 1), (3, 2)) : Node × Node) ∉ cexResult.edges := by
  decide

/-- Witness for C1 at the concrete series `[10, 20, 30, 20, 10]` with `δ = 2`
(day index 2 is the unique peak). -/
theorem peak_flag_characterization_witness :
    ((get_local_peak_values [10, 20, 30, 20, 10] 2 2 = true ↔
      (2 ≤ 2 ∧ 2 + 2 < ([10, 20, 30, 20, 10] : List ℚ).length ∧
        ∀ k, 1 ≤ k → k ≤ 2 →
          ([10, 20, 30, 20, 10] : List ℚ).getD (2 - k) 0 <
              ([10, 20, 30, 20, 10] : List ℚ).getD 2 0 ∧
            ([10, 20, 30, 20, 10] : List ℚ).getD (2 + k) 0 ≤
              ([10, 20, 30, 20, 10] : List ℚ).getD 2 0)) ∧
    ((2 < 2 ∨ ([10, 20, 30, 20, 10] : List ℚ).length ≤ 2 + 2) →
      get_local_peak_values [10, 20, 30, 20, 10] 2 2 = false)) :=
  peak_flag_characterization [10, 20, 30, 20, 10] 2 (by decide) (by decide) 2

end FloodWave
